import Mathlib

/-!
# Console line discipline, core bring-up loop and delay loop

A shallow embedding of `os/console.c`, `os/main.c` and `os/timer.c`.

* C `uint` (the console indices) is a natural number below `2 ^ 32`, with every
  arithmetic operation reduced modulo `2 ^ 32`.
* C `uint64` (timer readings) is a natural number below `2 ^ 64`, likewise.
* C `int` arguments (characters, return codes) are integers.
* Calls that leave the translation unit (`consputc` from `consintr`, `wakeup`,
  `sbi_putchar`, register accesses) are recorded in an explicit output trace.
-/

namespace Console

/-! ## Data model of `console.c` -/

/-- Modulus of the C type `uint`. -/
abbrev UINT_MOD : Nat := 4294967296

/-- The macro `INPUT_BUF_SIZE`. -/
abbrev INPUT_BUF_SIZE : Nat := 128

/-- The macro `BACKSPACE` (0x100). -/
abbrev BACKSPACE : Int := 256

/-- The macro `C(x)`, Control-x: `(x) - '@'`. -/
abbrev C (x : Int) : Int := x - 64

/-- Addition of two `uint` values. -/
@[irreducible]
def uadd (a b : Nat) : Nat := (a + b) % UINT_MOD

/-- Subtraction of two `uint` values: `a - b` reduced modulo `2 ^ 32`, the
borrow added only when `b` exceeds `a`. -/
@[irreducible]
def usub (a b : Nat) : Nat :=
  if b ≤ a then (a - b) % UINT_MOD else (a + UINT_MOD - b % UINT_MOD) % UINT_MOD

/-- Conversion of an `int` to the 8-bit `char` stored in `cons.buf`. -/
def toChar (c : Int) : Nat := (c % 256).toNat

/-- Calls made by `consintr` to other functions, in program order. -/
inductive Effect where
  | consputc (c : Int)
  | wakeup
  | print_procs
  | print_kpgmgr
  deriving DecidableEq, Repr

/-- The anonymous struct `cons` without its lock: the ring buffer and the
three `uint` indices. -/
structure Cons where
  buf : Fin 128 → Nat
  r : Nat
  w : Nat
  e : Nat

/-- The read `cons.buf[x % INPUT_BUF_SIZE]`. -/
def bufAt (buf : Fin 128 → Nat) (x : Nat) : Nat :=
  buf ⟨x % INPUT_BUF_SIZE, Nat.mod_lt x (by decide)⟩

/-- The write `cons.buf[x % INPUT_BUF_SIZE] = v`. -/
def bufStore (buf : Fin 128 → Nat) (x : Nat) (v : Nat) : Fin 128 → Nat :=
  fun j => if j.val = x % INPUT_BUF_SIZE then v else buf j

/-- The kill-line loop
`while (cons.e != cons.w && cons.buf[(cons.e - 1) % INPUT_BUF_SIZE] != '\n')`
with body `cons.e--; consputc(BACKSPACE);`.  The first argument bounds the
number of iterations. -/
def killLoop : Nat → Cons → Cons × List Effect
  | 0, s => (s, [])
  | fuel + 1, s =>
    if s.e ≠ s.w ∧ bufAt s.buf (usub s.e 1) ≠ 10 then
      let res := killLoop fuel { s with e := usub s.e 1 }
      (res.1, Effect.consputc BACKSPACE :: res.2)
    else (s, [])

/-- The function `consintr(int c)`: the new buffer state and the calls made.
The kill-line loop runs with bound `cons.e - cons.w`, the distance it has to
cover before `cons.e == cons.w` ends it. -/
def consintr (c : Int) (s : Cons) : Cons × List Effect :=
  if c = C 80 then (s, [Effect.print_procs])
  else if c = C 81 then (s, [Effect.print_kpgmgr])
  else if c = C 85 then killLoop (usub s.e s.w) s
  else if c = 127 then
    if s.e ≠ s.w then ({ s with e := usub s.e 1 }, [Effect.consputc BACKSPACE])
    else (s, [])
  else
    if c ≠ 0 ∧ usub s.e s.r < INPUT_BUF_SIZE then
      let c1 : Int := if c = 13 then 10 else c
      let s1 : Cons := { s with buf := bufStore s.buf s.e (toChar c1), e := uadd s.e 1 }
      if c1 = 10 ∨ c1 = C 68 ∨ usub s1.e s1.r = INPUT_BUF_SIZE then
        ({ s1 with w := s1.e }, [Effect.consputc c1, Effect.wakeup])
      else (s1, [Effect.consputc c1])
    else (s, [])

/-- Feeding a sequence of characters through `consintr`, one call each, as
`uart_intr` does; the traces are concatenated. -/
def feed : List Int → Cons → Cons × List Effect
  | [], s => (s, [])
  | c :: cs, s =>
    let r1 := consintr c s
    let r2 := feed cs r1.1
    (r2.1, r1.2 ++ r2.2)

/-- The fields `r`, `w`, `e` hold the logically unbounded counters `R`, `W`,
`E` reduced to 32 bits. -/
def Tracks (s : Cons) (R W E : Nat) : Prop :=
  s.r = R % UINT_MOD ∧ s.w = W % UINT_MOD ∧ s.e = E % UINT_MOD

instance (s : Cons) (R W E : Nat) : Decidable (Tracks s R W E) := by
  unfold Tracks; exact inferInstance

/-- The ring-buffer invariant on the unbounded counters. -/
def Inv (R W E : Nat) : Prop :=
  R ≤ W ∧ W ≤ E ∧ E ≤ R + INPUT_BUF_SIZE

instance (R W E : Nat) : Decidable (Inv R W E) := by
  unfold Inv; exact inferInstance

/-- A character that takes the default branch of `consintr` and is stored
without publishing: non-zero byte, no control code, not CR, LF or Ctrl-D. -/
def Ordinary (c : Int) : Prop :=
  0 < c ∧ c < 256 ∧ c ≠ C 80 ∧ c ≠ C 81 ∧ c ≠ C 85 ∧ c ≠ 127 ∧
    c ≠ 13 ∧ c ≠ 10 ∧ c ≠ C 68

instance (c : Int) : Decidable (Ordinary c) := by
  unfold Ordinary; exact inferInstance

/-- The state of `cons` at program start (zero-initialised static storage). -/
def cons0 : Cons := { buf := fun _ => 0, r := 0, w := 0, e := 0 }

/-- The published, not yet consumed bytes: `cons.buf[(r + i) % INPUT_BUF_SIZE]`
for `i = 0 .. w - r - 1`, the bytes a reader takes while `r != w`. -/
def published (s : Cons) : List Nat :=
  (List.range (usub s.w s.r)).map (fun i => bufAt s.buf (s.r + i))

/-- Modelled from the spec: the blocked reader (`consoleread`) is not among the
sources.  It is the only other code touching `cons`; it consumes published
bytes, that is, it advances `r` by some `k` and changes nothing else. -/
def readerAdvance (k : Nat) (s : Cons) : Cons := { s with r := uadd s.r k }

/-- States of `cons` reachable from the zero-initialised state by calls
`consintr(c)` with `c` a byte (`uart_intr` passes on what `uartgetc` read from
the 8-bit receive register, and stops at `-1`) interleaved with reader steps
that advance `r` by at most `w - r`. -/
inductive Reachable : Cons → Prop where
  | init : Reachable cons0
  | intr (c : Int) (s : Cons) : 0 ≤ c → c < 256 → Reachable s → Reachable (consintr c s).1
  | read (k : Nat) (s : Cons) : k ≤ usub s.w s.r → Reachable s → Reachable (readerAdvance k s)

/-! ## Basic facts -/

theorem bufAt_bufStore (buf : Fin 128 → Nat) (x v y : Nat) :
    bufAt (bufStore buf x v) y = if y % 128 = x % 128 then v else bufAt buf y := by
  simp [bufAt, bufStore]

theorem usub_tracks (A B : Nat) (h : B ≤ A) :
    usub (A % UINT_MOD) (B % UINT_MOD) = (A - B) % UINT_MOD := by
  simp only [usub, UINT_MOD]; split <;> omega

theorem usub_one_tracks (A : Nat) (h : 1 ≤ A) :
    usub (A % UINT_MOD) 1 = (A - 1) % UINT_MOD := by
  simp only [usub, UINT_MOD]; split <;> omega

theorem uadd_one_tracks (A : Nat) :
    uadd (A % UINT_MOD) 1 = (A + 1) % UINT_MOD := by
  simp only [uadd, UINT_MOD]; omega

/-- Unfolding of the kill-line loop on the unbounded counters: with `W ≤ E`
and enough iterations allowed, the loop erases some `k ≤ E - W` characters,
echoes `k` backspaces, and stops at `E - k = W` or in front of a newline. -/
theorem killLoop_tracks (fuel : Nat) :
    ∀ (s : Cons) (W E : Nat), s.w = W % UINT_MOD → s.e = E % UINT_MOD →
      W ≤ E → E - W < UINT_MOD → E - W ≤ fuel →
      ∃ k, k ≤ E - W ∧
        killLoop fuel s =
          ({ s with e := (E - k) % UINT_MOD },
            List.replicate k (Effect.consputc BACKSPACE)) ∧
        (E - k = W ∨ bufAt s.buf ((E - k - 1) % UINT_MOD) = 10) ∧
        (∀ j, j < k → bufAt s.buf ((E - j - 1) % UINT_MOD) ≠ 10) := by
  induction fuel with
  | zero =>
    intro s W E hw he hWE _ hf
    refine ⟨0, by omega, ?_, Or.inl (by omega), by intro j hj; omega⟩
    cases s; simp_all [killLoop]
  | succ n ih =>
    intro s W E hw he hWE hlt hf
    by_cases hcond : s.e ≠ s.w ∧ bufAt s.buf (usub s.e 1) ≠ 10
    · have hne : E ≠ W := by
        intro h; apply hcond.1; rw [hw, he, h]
      have hE1 : 1 ≤ E := by omega
      have hu : usub s.e 1 = (E - 1) % UINT_MOD := by
        rw [he]; exact usub_one_tracks E hE1
      obtain ⟨k, hk, hrun, hstop, hall⟩ :=
        ih { s with e := usub s.e 1 } W (E - 1) hw hu (by omega) (by omega) (by omega)
      refine ⟨k + 1, by omega, ?_, ?_, ?_⟩
      · rw [killLoop, if_pos hcond]
        simp only [hrun, List.replicate_succ]
        have : E - 1 - k = E - (k + 1) := by omega
        rw [this]
      · have : E - (k + 1) = E - 1 - k := by omega
        rw [this]; exact hstop
      · intro j hj
        cases j with
        | zero =>
          have := hcond.2
          rw [hu] at this
          simpa using this
        | succ j =>
          have h1 := hall j (by omega)
          have : E - (j + 1) - 1 = E - 1 - j - 1 := by omega
          rw [this]; exact h1
    · refine ⟨0, by omega, ?_, ?_, by intro j hj; omega⟩
      · rw [killLoop, if_neg hcond]
        cases s; simp_all
      · by_cases hew : s.e = s.w
        · left
          rw [hw, he] at hew
          have : E % UINT_MOD = W % UINT_MOD := hew
          simp only [UINT_MOD] at this hlt
          omega
        · right
          have h2 : ¬ bufAt s.buf (usub s.e 1) ≠ 10 := fun h => hcond ⟨hew, h⟩
          have hE1 : 1 ≤ E := by
            rcases Nat.eq_zero_or_pos E with h0 | h0
            · exfalso; apply hew; rw [hw, he]; subst h0
              have : W = 0 := by omega
              rw [this]
            · exact h0
          have hu : usub s.e 1 = (E - 1) % UINT_MOD := by
            rw [he]; exact usub_one_tracks E hE1
          rw [hu] at h2
          simpa using h2

theorem bufStore_tracks (buf : Fin 128 → Nat) (E v : Nat) :
    bufStore buf (E % UINT_MOD) v = bufStore buf E v := by
  funext j
  have : E % UINT_MOD % INPUT_BUF_SIZE = E % INPUT_BUF_SIZE := by
    simp only [UINT_MOD, INPUT_BUF_SIZE]; omega
  simp only [bufStore, this]

theorem bufAt_tracks (buf : Fin 128 → Nat) (E : Nat) :
    bufAt buf (E % UINT_MOD) = bufAt buf E := by
  have : E % UINT_MOD % INPUT_BUF_SIZE = E % INPUT_BUF_SIZE := by
    simp only [UINT_MOD, INPUT_BUF_SIZE]; omega
  simp only [bufAt, this]

/-- The kill-line branch is the loop started with bound `cons.e - cons.w`. -/
theorem consintr_kill (s : Cons) : consintr (C 85) s = killLoop (usub s.e s.w) s := by
  simp [consintr]

/-- An ordinary character arriving while fewer than 127 bytes are held is
echoed and stored at `e`; nothing is published. -/
theorem consintr_store (s : Cons) (R W E : Nat) (c : Int) (ht : Tracks s R W E)
    (hi : Inv R W E) (hc : Ordinary c) (hroom : E + 1 < R + INPUT_BUF_SIZE) :
    consintr c s =
      ({ s with buf := bufStore s.buf E (toChar c), e := (E + 1) % UINT_MOD },
        [Effect.consputc c]) := by
  obtain ⟨hr, hw, he⟩ := ht
  obtain ⟨h1, h2, h3⟩ := hi
  obtain ⟨c0, c1, c2, c3, c4, c5, c6, c7, c8⟩ := hc
  have hsub : usub s.e s.r = E - R := by
    rw [he, hr, usub_tracks E R (by omega)]
    simp only [UINT_MOD, INPUT_BUF_SIZE] at *; omega
  have hsub1 : usub (uadd s.e 1) s.r = E + 1 - R := by
    rw [he, hr, uadd_one_tracks, usub_tracks (E + 1) R (by omega)]
    simp only [UINT_MOD, INPUT_BUF_SIZE] at *; omega
  have hc0 : c ≠ 0 := by omega
  have hfull : ¬ (E + 1 - R = INPUT_BUF_SIZE) := by
    simp only [INPUT_BUF_SIZE] at *; omega
  have hlt : E - R < INPUT_BUF_SIZE := by
    simp only [INPUT_BUF_SIZE] at *; omega
  simp only [consintr, if_neg c2, if_neg c3, if_neg c4, if_neg c5, if_neg c6, hsub, hsub1,
    hc0, hlt, ne_eq, not_false_eq_true, and_self, if_true, c7, c8, hfull, or_self, if_false]
  rw [he, bufStore_tracks, uadd_one_tracks]

/-- An ordinary character that fills the buffer (it is the 128th byte held) is
echoed, stored and published, and `wakeup` is called. -/
theorem consintr_fill (s : Cons) (R W E : Nat) (c : Int) (ht : Tracks s R W E)
    (hi : Inv R W E) (hc : Ordinary c) (hroom : E + 1 = R + INPUT_BUF_SIZE) :
    consintr c s =
      ({ s with buf := bufStore s.buf E (toChar c), w := (E + 1) % UINT_MOD,
                e := (E + 1) % UINT_MOD },
        [Effect.consputc c, Effect.wakeup]) := by
  obtain ⟨hr, hw, he⟩ := ht
  obtain ⟨h1, h2, h3⟩ := hi
  obtain ⟨c0, c1, c2, c3, c4, c5, c6, c7, c8⟩ := hc
  have hsub : usub s.e s.r = E - R := by
    rw [he, hr, usub_tracks E R (by omega)]
    simp only [UINT_MOD, INPUT_BUF_SIZE] at *; omega
  have hsub1 : usub (uadd s.e 1) s.r = E + 1 - R := by
    rw [he, hr, uadd_one_tracks, usub_tracks (E + 1) R (by omega)]
    simp only [UINT_MOD, INPUT_BUF_SIZE] at *; omega
  have hc0 : c ≠ 0 := by omega
  have hfull : E + 1 - R = INPUT_BUF_SIZE := by
    simp only [INPUT_BUF_SIZE] at *; omega
  have hlt : E - R < INPUT_BUF_SIZE := by
    simp only [INPUT_BUF_SIZE] at *; omega
  simp only [consintr, if_neg c2, if_neg c3, if_neg c4, if_neg c5, if_neg c6, hsub, hsub1,
    hc0, hlt, ne_eq, not_false_eq_true, and_self, if_true, hfull, or_true]
  rw [he, bufStore_tracks, uadd_one_tracks]

/-- A character of the default branch arriving at a full buffer is dropped:
no state change and no call. -/
theorem consintr_drop (s : Cons) (R W E : Nat) (c : Int) (ht : Tracks s R W E)
    (hc : Ordinary c) (hfull : E = R + INPUT_BUF_SIZE) :
    consintr c s = (s, []) := by
  obtain ⟨hr, hw, he⟩ := ht
  obtain ⟨c0, c1, c2, c3, c4, c5, c6, c7, c8⟩ := hc
  have hsub : usub s.e s.r = E - R := by
    rw [he, hr, usub_tracks E R (by omega)]
    simp only [UINT_MOD, INPUT_BUF_SIZE] at *; omega
  have hlt : ¬ (E - R < INPUT_BUF_SIZE) := by
    simp only [INPUT_BUF_SIZE] at *; omega
  simp only [consintr, if_neg c2, if_neg c3, if_neg c4, if_neg c5, hsub, hlt, and_false,
    if_false]

/-- A newline arriving while there is room is echoed, stored and published,
and `wakeup` is called. -/
theorem consintr_newline (s : Cons) (R W E : Nat) (ht : Tracks s R W E)
    (hi : Inv R W E) (hroom : E < R + INPUT_BUF_SIZE) :
    consintr 10 s =
      ({ s with buf := bufStore s.buf E 10, w := (E + 1) % UINT_MOD,
                e := (E + 1) % UINT_MOD },
        [Effect.consputc 10, Effect.wakeup]) := by
  obtain ⟨hr, hw, he⟩ := ht
  obtain ⟨h1, h2, h3⟩ := hi
  have hsub : usub s.e s.r = E - R := by
    rw [he, hr, usub_tracks E R (by omega)]
    simp only [UINT_MOD, INPUT_BUF_SIZE] at *; omega
  have hlt : E - R < INPUT_BUF_SIZE := by
    simp only [INPUT_BUF_SIZE] at *; omega
  have h10 : toChar 10 = 10 := by decide
  have k1 : ¬ ((10 : Int) = C 80) := by decide
  have k2 : ¬ ((10 : Int) = C 81) := by decide
  have k3 : ¬ ((10 : Int) = C 85) := by decide
  simp only [consintr, if_neg k1, if_neg k2, if_neg k3]
  simp [hsub, hlt, h10]
  rw [he, bufStore_tracks, uadd_one_tracks]
  exact ⟨rfl, rfl⟩

/-- Feeding ordinary characters that leave the buffer short of full: each is
echoed and stored, `r` and `w` stay, `e` advances by the number fed, the
characters sit at positions `E, E+1, ...` and every other slot is untouched. -/
theorem feed_ordinary (cs : List Int) :
    ∀ (s : Cons) (R W E : Nat), Tracks s R W E → Inv R W E →
      (∀ c ∈ cs, Ordinary c) → E + cs.length < R + INPUT_BUF_SIZE →
      (feed cs s).2 = cs.map Effect.consputc ∧
      (feed cs s).1.r = s.r ∧ (feed cs s).1.w = s.w ∧
      (feed cs s).1.e = (E + cs.length) % UINT_MOD ∧
      (∀ i c, cs[i]? = some c → bufAt (feed cs s).1.buf (E + i) = toChar c) ∧
      (∀ x, (∀ i, i < cs.length → (E + i) % 128 ≠ x % 128) →
        bufAt (feed cs s).1.buf x = bufAt s.buf x) := by
  induction cs with
  | nil =>
    intro s R W E ht _ _ _
    refine ⟨rfl, rfl, rfl, ?_, ?_, ?_⟩
    · simpa [feed] using ht.2.2
    · intro i c h; simp at h
    · intro x _; rfl
  | cons c cs ih =>
    intro s R W E ht hi hord hroom
    have hc : Ordinary c := hord c (List.mem_cons_self _ _)
    have hlen : E + 1 + cs.length < R + INPUT_BUF_SIZE := by
      simp only [List.length_cons] at hroom; omega
    have hstep := consintr_store s R W E c ht hi hc (by omega)
    have ht1 : Tracks (consintr c s).1 R W (E + 1) := by
      rw [hstep]; exact ⟨ht.1, ht.2.1, rfl⟩
    have hi1 : Inv R W (E + 1) := ⟨hi.1, by have := hi.2.1; omega, by omega⟩
    obtain ⟨t1, t2, t3, t4, t5, t6⟩ :=
      ih (consintr c s).1 R W (E + 1) ht1 hi1
        (fun d hd => hord d (List.mem_cons_of_mem _ hd)) hlen
    have hRE : R ≤ E := le_trans hi.1 hi.2.1
    have hbuf : (consintr c s).1.buf = bufStore s.buf E (toChar c) := by rw [hstep]
    refine ⟨?_, ?_, ?_, ?_, ?_, ?_⟩
    · show (consintr c s).2 ++ (feed cs (consintr c s).1).2 = _
      rw [t1, hstep]; rfl
    · show (feed cs (consintr c s).1).1.r = s.r
      rw [t2, hstep]
    · show (feed cs (consintr c s).1).1.w = s.w
      rw [t3, hstep]
    · show (feed cs (consintr c s).1).1.e = _
      rw [t4, List.length_cons]
      congr 1; omega
    · intro i d hid
      cases i with
      | zero =>
        simp only [List.getElem?_cons_zero, Option.some.injEq] at hid
        subst hid
        have h0 := t6 E (by
          intro j hj
          simp only [INPUT_BUF_SIZE] at hlen
          omega)
        simp only [feed, Nat.add_zero]
        rw [h0, hbuf, bufAt_bufStore]
        simp
      | succ i =>
        simp only [List.getElem?_cons_succ] at hid
        have := t5 i d hid
        simp only [feed]
        have e1 : E + (i + 1) = E + 1 + i := by omega
        rw [e1]; exact this
    · intro x hx
      have h0 := t6 x (by
        intro j hj
        have := hx (j + 1) (by simp only [List.length_cons]; omega)
        have e1 : E + (j + 1) = E + 1 + j := by omega
        rw [e1] at this; exact this)
      simp only [feed]
      rw [h0, hbuf, bufAt_bufStore]
      have := hx 0 (by simp)
      simp only [Nat.add_zero] at this
      rw [if_neg (fun h => this h.symm)]

/-- Kill-line on a state whose uncommitted region `W .. E-1` holds no newline:
every uncommitted character is erased and `e` returns to `w`. -/
theorem kill_uncommitted (s : Cons) (R W E : Nat) (ht : Tracks s R W E) (hi : Inv R W E)
    (hnl : ∀ i, W ≤ i → i < E → bufAt s.buf i ≠ 10) :
    consintr (C 85) s =
      ({ s with e := s.w }, List.replicate (E - W) (Effect.consputc BACKSPACE)) := by
  obtain ⟨hr, hw, he⟩ := ht
  obtain ⟨h1, h2, h3⟩ := hi
  obtain ⟨k, hk, hrun, hstop, -⟩ :=
    killLoop_tracks (usub s.e s.w) s W E hw he h2
      (by simp only [UINT_MOD, INPUT_BUF_SIZE] at *; omega)
      (by
        rw [he, hw, usub_tracks E W h2]
        simp only [UINT_MOD, INPUT_BUF_SIZE] at *; omega)
  have hkW : E - k = W := by
    rcases hstop with h | h
    · exact h
    · by_contra hne
      have := hnl (E - k - 1) (by omega) (by omega)
      rw [bufAt_tracks] at h
      exact this h
  rw [consintr_kill, hrun, hkW, hw]
  have : k = E - W := by omega
  rw [this]

theorem feed_append (as bs : List Int) :
    ∀ s : Cons, feed (as ++ bs) s =
      ((feed bs (feed as s).1).1, (feed as s).2 ++ (feed bs (feed as s).1).2) := by
  induction as with
  | nil => intro s; simp [feed]
  | cons a as ih => intro s; simp [feed, ih, List.append_assoc]

theorem feed_single (c : Int) (s : Cons) : feed [c] s = consintr c s := by
  simp [feed]

theorem count_wakeup_echo (cs : List Int) :
    (cs.map Effect.consputc).count Effect.wakeup = 0 := by
  induction cs with
  | nil => rfl
  | cons c cs ih => simp [List.count_cons, ih]

theorem toChar_ordinary (c : Int) (hc : Ordinary c) : ((toChar c : Nat) : Int) = c := by
  obtain ⟨h0, h1, -⟩ := hc
  unfold toChar
  omega

theorem bufAt_add_tracks (buf : Fin 128 → Nat) (R i : Nat) :
    bufAt buf (R % UINT_MOD + i) = bufAt buf (R + i) := by
  have : (R % UINT_MOD + i) % INPUT_BUF_SIZE = (R + i) % INPUT_BUF_SIZE := by
    simp only [UINT_MOD, INPUT_BUF_SIZE]; omega
  simp only [bufAt, this]

/-- The two diagnostic branches leave `cons` alone. -/
theorem consintr_diag (s : Cons) (c : Int) (h : c = C 80 ∨ c = C 81) :
    (consintr c s).1 = s := by
  rcases h with h | h
  · subst h; rfl
  · subst h; rfl

/-- The delete branch. -/
theorem consintr_delete (s : Cons) :
    consintr 127 s =
      if s.e ≠ s.w then ({ s with e := usub s.e 1 }, [Effect.consputc BACKSPACE])
      else (s, []) := by
  have k1 : ¬ ((127 : Int) = C 80) := by decide
  have k2 : ¬ ((127 : Int) = C 81) := by decide
  have k3 : ¬ ((127 : Int) = C 85) := by decide
  simp only [consintr, if_neg k1, if_neg k2, if_neg k3, if_true]

/-- The default branch, for a character that is none of the four control codes. -/
theorem consintr_default (s : Cons) (c : Int) (c2 : c ≠ C 80) (c3 : c ≠ C 81)
    (c4 : c ≠ C 85) (c5 : c ≠ 127) :
    consintr c s =
      if c ≠ 0 ∧ usub s.e s.r < INPUT_BUF_SIZE then
        if (if c = 13 then 10 else c) = 10 ∨ (if c = 13 then 10 else c) = C 68 ∨
            usub (uadd s.e 1) s.r = INPUT_BUF_SIZE then
          ({ s with buf := bufStore s.buf s.e (toChar (if c = 13 then 10 else c)),
                    w := uadd s.e 1, e := uadd s.e 1 },
            [Effect.consputc (if c = 13 then 10 else c), Effect.wakeup])
        else
          ({ s with buf := bufStore s.buf s.e (toChar (if c = 13 then 10 else c)),
                    e := uadd s.e 1 },
            [Effect.consputc (if c = 13 then 10 else c)])
      else (s, []) := by
  simp only [consintr, if_neg c2, if_neg c3, if_neg c4, if_neg c5]


theorem usub_tracks_small (A B : Nat) (h : B ≤ A) (hs : A - B ≤ INPUT_BUF_SIZE) :
    usub (A % UINT_MOD) (B % UINT_MOD) = A - B := by
  simp only [usub, UINT_MOD, INPUT_BUF_SIZE] at *; split <;> omega

/-- One call of `consintr` keeps `r` and keeps the indices within the window
`R ≤ W' ≤ E' ≤ R + 128`. -/
theorem consintr_inv_step (s : Cons) (R W E : Nat) (c : Int)
    (ht : Tracks s R W E) (hi : Inv R W E) :
    (consintr c s).1.r = s.r ∧
      ∃ W' E', Tracks (consintr c s).1 R W' E' ∧ Inv R W' E' := by
  by_cases c2 : c = C 80
  · rw [consintr_diag s c (Or.inl c2)]
    exact ⟨rfl, W, E, ht, hi⟩
  by_cases c3 : c = C 81
  · rw [consintr_diag s c (Or.inr c3)]
    exact ⟨rfl, W, E, ht, hi⟩
  obtain ⟨hr, hw, he⟩ := ht
  obtain ⟨h1, h2, h3⟩ := hi
  have hE1 : uadd s.e 1 = (E + 1) % UINT_MOD := by
    rw [he]; exact uadd_one_tracks E
  by_cases c4 : c = C 85
  · have hfuel : usub s.e s.w = E - W := by
      rw [he, hw]; exact usub_tracks_small E W h2 (by omega)
    obtain ⟨k, hk, hrun, -, -⟩ :=
      killLoop_tracks (usub s.e s.w) s W E hw he h2
        (lt_of_le_of_lt (show E - W ≤ INPUT_BUF_SIZE by omega) (by decide))
        (le_of_eq hfuel.symm)
    rw [c4, consintr_kill, hrun]
    exact ⟨rfl, W, E - k, ⟨hr, hw, rfl⟩, ⟨h1, by omega, by omega⟩⟩
  by_cases c5 : c = 127
  · rw [c5, consintr_delete]
    by_cases hew : s.e = s.w
    · rw [if_neg (not_not.mpr hew)]
      exact ⟨rfl, W, E, ⟨hr, hw, he⟩, ⟨h1, h2, h3⟩⟩
    · rw [if_pos hew]
      have hne : E ≠ W := by
        intro h; apply hew; rw [hw, he, h]
      have hu : usub s.e 1 = (E - 1) % UINT_MOD := by
        rw [he]; exact usub_one_tracks E (by omega)
      exact ⟨rfl, W, E - 1, ⟨hr, hw, hu⟩, ⟨h1, by omega, by omega⟩⟩
  · rw [consintr_default s c c2 c3 c4 c5]
    have hsub : usub s.e s.r = E - R := by
      rw [he, hr]; exact usub_tracks_small E R (by omega) (by omega)
    by_cases hcond : c ≠ 0 ∧ usub s.e s.r < INPUT_BUF_SIZE
    · rw [if_pos hcond]
      have hlt : E - R < INPUT_BUF_SIZE := by rw [← hsub]; exact hcond.2
      have hI1 : Inv R (E + 1) (E + 1) := ⟨by omega, le_refl _, by omega⟩
      have hI2 : Inv R W (E + 1) := ⟨h1, by omega, by omega⟩
      by_cases hpub : (if c = 13 then 10 else c) = 10 ∨ (if c = 13 then 10 else c) = C 68 ∨
            usub (uadd s.e 1) s.r = INPUT_BUF_SIZE
      · rw [if_pos hpub]
        exact ⟨rfl, E + 1, E + 1, ⟨hr, hE1, hE1⟩, hI1⟩
      · rw [if_neg hpub]
        exact ⟨rfl, W, E + 1, ⟨hr, hw, hE1⟩, hI2⟩
    · rw [if_neg hcond]
      exact ⟨rfl, W, E, ⟨hr, hw, he⟩, ⟨h1, h2, h3⟩⟩

/-- Feeding any characters keeps `r` and the window invariant. -/
theorem feed_inv (cs : List Int) :
    ∀ (s : Cons) (R W E : Nat), Tracks s R W E → Inv R W E →
      (feed cs s).1.r = s.r ∧ ∃ W' E', Tracks (feed cs s).1 R W' E' ∧ Inv R W' E' := by
  induction cs with
  | nil => intro s R W E ht hi; exact ⟨rfl, W, E, ht, hi⟩
  | cons c cs ih =>
    intro s R W E ht hi
    obtain ⟨h1, W1, E1, ht1, hi1⟩ := consintr_inv_step s R W E c ht hi
    obtain ⟨h2, W2, E2, ht2, hi2⟩ := ih (consintr c s).1 R W1 E1 ht1 hi1
    exact ⟨by simp only [feed]; rw [h2, h1], W2, E2, by simpa only [feed] using ht2, hi2⟩

/-- Ordinary characters fed to a full buffer are all dropped. -/
theorem feed_full (cs : List Int) (s : Cons) (R W E : Nat) (ht : Tracks s R W E)
    (hord : ∀ c ∈ cs, Ordinary c) (hfull : E = R + INPUT_BUF_SIZE) :
    feed cs s = (s, []) := by
  induction cs with
  | nil => rfl
  | cons c cs ih =>
    have h1 := consintr_drop s R W E c ht (hord c (List.mem_cons_self _ _)) hfull
    have h2 := ih (fun d hd => hord d (List.mem_cons_of_mem _ hd))
    simp only [feed, h1, h2, List.append_nil]

/-- Exactly 128 ordinary characters fed to an empty buffer: the first 127 are
stored, the 128th is stored and published with `wakeup`; all 128 sit at
positions `R .. R + 127`. -/
theorem feed_to_full (a : List Int) (b : Int) (s : Cons) (R : Nat) (ht : Tracks s R R R)
    (ha : ∀ c ∈ a, Ordinary c) (hb : Ordinary b) (hlen : a.length = 127) :
    (feed (a ++ [b]) s).2 = (a ++ [b]).map Effect.consputc ++ [Effect.wakeup] ∧
      (feed a s).2 = a.map Effect.consputc ∧
      Tracks (feed (a ++ [b]) s).1 R (R + 128) (R + 128) ∧
      (∀ i c, (a ++ [b])[i]? = some c →
        bufAt (feed (a ++ [b]) s).1.buf (R + i) = toChar c) := by
  have hi : Inv R R R := ⟨le_refl _, le_refl _, by omega⟩
  obtain ⟨f1, f2, f3, f4, f5, f6⟩ :=
    feed_ordinary a s R R R ht hi ha (by simp only [INPUT_BUF_SIZE]; omega)
  have ht1 : Tracks (feed a s).1 R R (R + a.length) :=
    ⟨by rw [f2]; exact ht.1, by rw [f3]; exact ht.2.1, f4⟩
  have hi1 : Inv R R (R + a.length) :=
    ⟨le_refl _, by omega, by simp only [INPUT_BUF_SIZE]; omega⟩
  have hfill := consintr_fill (feed a s).1 R R (R + a.length) b ht1 hi1 hb
    (by simp only [INPUT_BUF_SIZE]; omega)
  have hfeed : feed (a ++ [b]) s =
      ({ (feed a s).1 with buf := bufStore (feed a s).1.buf (R + a.length) (toChar b),
                           w := (R + a.length + 1) % UINT_MOD,
                           e := (R + a.length + 1) % UINT_MOD },
        (a ++ [b]).map Effect.consputc ++ [Effect.wakeup]) := by
    rw [feed_append, feed_single, hfill, f1]
    simp
  rw [hfeed]
  refine ⟨rfl, f1, ⟨?_, ?_, ?_⟩, ?_⟩
  · show (feed a s).1.r = R % UINT_MOD
    rw [f2]; exact ht.1
  · show (R + a.length + 1) % UINT_MOD = (R + 128) % UINT_MOD
    rw [hlen]
  · show (R + a.length + 1) % UINT_MOD = (R + 128) % UINT_MOD
    rw [hlen]
  · intro i c hic
    show bufAt (bufStore (feed a s).1.buf (R + a.length) (toChar b)) (R + i) = toChar c
    rw [bufAt_bufStore]
    by_cases hin : i < a.length
    · have hne : ¬ ((R + i) % 128 = (R + a.length) % 128) := by omega
      rw [if_neg hne]
      rw [List.getElem?_append_left hin] at hic
      exact f5 i c hic
    · have hlt : i < (a ++ [b]).length := by
        by_contra hge
        rw [List.getElem?_eq_none (by omega)] at hic
        exact Option.noConfusion hic
      have hi2 : i = a.length := by
        simp only [List.length_append, List.length_singleton] at hlt; omega
      subst hi2
      simp at hic
      subst hic
      simp

/-- Reading back the published bytes: if `w` is `n ≤ 128` ahead of `r` and the
slots `R .. R + n - 1` hold the bytes of `l`, then `published` returns `l`. -/
theorem published_eq (st : Cons) (R : Nat) (l : List Int) (hr : st.r = R % UINT_MOD)
    (hw : st.w = (R + l.length) % UINT_MOD) (hn : l.length ≤ INPUT_BUF_SIZE)
    (hbyte : ∀ c ∈ l, 0 ≤ c ∧ c < 256)
    (hbuf : ∀ i c, l[i]? = some c → bufAt st.buf (R + i) = toChar c) :
    (published st).map Int.ofNat = l := by
  have hdist : usub st.w st.r = l.length := by
    rw [hw, hr, usub_tracks_small (R + l.length) R (by omega) (by omega)]
    omega
  unfold published
  rw [hdist, hr, List.map_map]
  apply List.ext_getElem
  · simp
  · intro i h1 h2
    simp only [List.getElem_map, List.getElem_range, Function.comp_apply]
    rw [bufAt_add_tracks, hbuf i l[i] (List.getElem?_eq_getElem h2)]
    obtain ⟨b0, b1⟩ := hbyte l[i] (List.getElem_mem _)
    show ((toChar l[i] : Nat) : Int) = l[i]
    unfold toChar
    omega

/-- More than a buffer-full of ordinary characters: the first 128 are taken,
the 128th publishes them with one `wakeup`, the rest are dropped. -/
theorem feed_overflow (t rest : List Int) (s : Cons) (R : Nat) (ht : Tracks s R R R)
    (hto : ∀ c ∈ t, Ordinary c) (hro : ∀ c ∈ rest, Ordinary c) (hlen : t.length = 128) :
    feed (t ++ rest) s = ((feed t s).1, t.map Effect.consputc ++ [Effect.wakeup]) ∧
      Tracks (feed t s).1 R (R + 128) (R + 128) ∧
      (∀ i c, t[i]? = some c → bufAt (feed t s).1.buf (R + i) = toChar c) := by
  have hne : t ≠ [] := by
    intro h; rw [h] at hlen; simp at hlen
  have hsplit : t.dropLast ++ [t.getLast hne] = t := List.dropLast_append_getLast hne
  have hal : t.dropLast.length = 127 := by
    rw [List.length_dropLast, hlen]
  have hao : ∀ c ∈ t.dropLast, Ordinary c := fun c hc => hto c (List.mem_of_mem_dropLast hc)
  have hbo : Ordinary (t.getLast hne) := hto _ (List.getLast_mem hne)
  obtain ⟨g1, -, g3, g4⟩ := feed_to_full t.dropLast (t.getLast hne) s R ht hao hbo hal
  rw [hsplit] at g1 g3 g4
  refine ⟨?_, g3, g4⟩
  rw [feed_append, feed_full rest (feed t s).1 R (R + 128) (R + 128) g3 hro rfl, g1]
  simp

theorem uadd_tracks (A k : Nat) : uadd (A % UINT_MOD) k = (A + k) % UINT_MOD := by
  simp only [uadd, UINT_MOD]; omega

/-- One call of `consintr` with a byte keeps the invariant together with the
fact that no uncommitted slot (`W .. E-1`) holds a newline. -/
theorem consintr_region_step (s : Cons) (R W E : Nat) (c : Int)
    (ht : Tracks s R W E) (hi : Inv R W E)
    (hnl : ∀ i, W ≤ i → i < E → bufAt s.buf i ≠ 10) (hc0 : 0 ≤ c) (hc1 : c < 256) :
    ∃ W' E', Tracks (consintr c s).1 R W' E' ∧ Inv R W' E' ∧
      ∀ i, W' ≤ i → i < E' → bufAt (consintr c s).1.buf i ≠ 10 := by
  by_cases c2 : c = C 80
  · rw [consintr_diag s c (Or.inl c2)]
    exact ⟨W, E, ht, hi, hnl⟩
  by_cases c3 : c = C 81
  · rw [consintr_diag s c (Or.inr c3)]
    exact ⟨W, E, ht, hi, hnl⟩
  obtain ⟨hr, hw, he⟩ := ht
  obtain ⟨h1, h2, h3⟩ := hi
  have hE1 : uadd s.e 1 = (E + 1) % UINT_MOD := by
    rw [he]; exact uadd_one_tracks E
  by_cases c4 : c = C 85
  · have hfuel : usub s.e s.w = E - W := by
      rw [he, hw]; exact usub_tracks_small E W h2 (by omega)
    obtain ⟨k, hk, hrun, -, -⟩ :=
      killLoop_tracks (usub s.e s.w) s W E hw he h2
        (lt_of_le_of_lt (show E - W ≤ INPUT_BUF_SIZE by omega) (by decide))
        (le_of_eq hfuel.symm)
    rw [c4, consintr_kill, hrun]
    exact ⟨W, E - k, ⟨hr, hw, rfl⟩, ⟨h1, by omega, by omega⟩,
      fun i hi1 hi2 => hnl i hi1 (by omega)⟩
  by_cases c5 : c = 127
  · rw [c5, consintr_delete]
    by_cases hew : s.e = s.w
    · rw [if_neg (not_not.mpr hew)]
      exact ⟨W, E, ⟨hr, hw, he⟩, ⟨h1, h2, h3⟩, hnl⟩
    · rw [if_pos hew]
      have hne : E ≠ W := by
        intro h; apply hew; rw [hw, he, h]
      have hu : usub s.e 1 = (E - 1) % UINT_MOD := by
        rw [he]; exact usub_one_tracks E (by omega)
      exact ⟨W, E - 1, ⟨hr, hw, hu⟩, ⟨h1, by omega, by omega⟩,
        fun i hi1 hi2 => hnl i hi1 (by omega)⟩
  · rw [consintr_default s c c2 c3 c4 c5]
    have hsub : usub s.e s.r = E - R := by
      rw [he, hr]; exact usub_tracks_small E R (by omega) (by omega)
    by_cases hcond : c ≠ 0 ∧ usub s.e s.r < INPUT_BUF_SIZE
    · rw [if_pos hcond]
      have hlt : E - R < INPUT_BUF_SIZE := by rw [← hsub]; exact hcond.2
      have hI1 : Inv R (E + 1) (E + 1) := ⟨by omega, le_refl _, by omega⟩
      have hI2 : Inv R W (E + 1) := ⟨h1, by omega, by omega⟩
      by_cases hpub : (if c = 13 then 10 else c) = 10 ∨ (if c = 13 then 10 else c) = C 68 ∨
            usub (uadd s.e 1) s.r = INPUT_BUF_SIZE
      · rw [if_pos hpub]
        exact ⟨E + 1, E + 1, ⟨hr, hE1, hE1⟩, hI1, fun i hi1 hi2 => absurd hi2 (by omega)⟩
      · rw [if_neg hpub]
        refine ⟨W, E + 1, ⟨hr, hw, hE1⟩, hI2, ?_⟩
        intro i hi1 hi2
        show bufAt (bufStore s.buf s.e (toChar (if c = 13 then 10 else c))) i ≠ 10
        rw [he, bufStore_tracks, bufAt_bufStore]
        by_cases hiE : i = E
        · rw [if_pos (by rw [hiE])]
          have hne10 : ¬ ((if c = 13 then 10 else c) = 10) := fun h => hpub (Or.inl h)
          by_cases h13 : c = 13
          · rw [if_pos h13] at hne10; exact absurd rfl hne10
          · rw [if_neg h13] at hne10 ⊢
            unfold toChar
            omega
        · have hmod : ¬ (i % 128 = E % 128) := by
            simp only [INPUT_BUF_SIZE] at hlt; omega
          rw [if_neg hmod]
          exact hnl i hi1 (by omega)
    · rw [if_neg hcond]
      exact ⟨W, E, ⟨hr, hw, he⟩, ⟨h1, h2, h3⟩, hnl⟩

/-- Every reachable state holds some counters `R ≤ W ≤ E ≤ R + 128` and has no
newline in the uncommitted slots `W .. E-1`. -/
theorem reachable_region (s : Cons) (h : Reachable s) :
    ∃ R W E, Tracks s R W E ∧ Inv R W E ∧ ∀ i, W ≤ i → i < E → bufAt s.buf i ≠ 10 := by
  induction h with
  | init =>
    exact ⟨0, 0, 0, ⟨rfl, rfl, rfl⟩, ⟨le_refl _, le_refl _, Nat.zero_le _⟩,
      fun i _ hi2 => absurd hi2 (Nat.not_lt_zero i)⟩
  | intr c s hc0 hc1 _ ih =>
    obtain ⟨R, W, E, ht, hi, hnl⟩ := ih
    obtain ⟨W', E', ht', hi', hnl'⟩ := consintr_region_step s R W E c ht hi hnl hc0 hc1
    exact ⟨R, W', E', ht', hi', hnl'⟩
  | read k s hk _ ih =>
    obtain ⟨R, W, E, ⟨hr, hw, he⟩, ⟨h1, h2, h3⟩, hnl⟩ := ih
    have hd : usub s.w s.r = W - R := by
      rw [hw, hr]; exact usub_tracks_small W R h1 (by omega)
    rw [hd] at hk
    refine ⟨R + k, W, E, ⟨?_, hw, he⟩, ⟨by omega, h2, by omega⟩, hnl⟩
    show uadd s.r k = (R + k) % UINT_MOD
    rw [hr]; exact uadd_tracks R k

/-! ## Claims about `consintr` -/

/-- C1: in every state whose indices hold unbounded counters `R ≤ W ≤ E ≤ R + 128`
reduced to 32 bits, `consintr c` (any `c`) leaves `cons.r` unchanged and ends in
a state whose indices again hold counters `R ≤ W' ≤ E' ≤ R + 128`. -/
theorem consintr_preserves_invariant (s : Cons) (R W E : Nat) (c : Int)
    (ht : Tracks s R W E) (hi : Inv R W E) :
    (consintr c s).1.r = s.r ∧
      ∃ W' E', Tracks (consintr c s).1 R W' E' ∧ Inv R W' E' :=
  consintr_inv_step s R W E c ht hi

/-- C1 at a wrapping state: `R = W = 2^32 - 1`, `E = 2^32 + 1`, character `x`. -/
theorem consintr_preserves_invariant_witness :
    Tracks { buf := fun _ => 0, r := 4294967295, w := 4294967295, e := 1 }
        4294967295 4294967295 4294967297 ∧
      Inv 4294967295 4294967295 4294967297 ∧
      ((consintr 120 { buf := fun _ => 0, r := 4294967295, w := 4294967295, e := 1 }).1.r
          = 4294967295 ∧
        ∃ W' E',
          Tracks (consintr 120
            { buf := fun _ => 0, r := 4294967295, w := 4294967295, e := 1 }).1
            4294967295 W' E' ∧ Inv 4294967295 W' E') :=
  ⟨by decide, by decide,
    consintr_preserves_invariant _ 4294967295 4294967295 4294967297 120
      (by decide) (by decide)⟩

/-- C4 (as amended): in a state satisfying the invariant, kill-line (Ctrl-U) leaves
`buf`, `r` and `w` alone, erases some `k ≤ E - W` characters so `e` never drops
below `w`, echoes exactly `k` BACKSPACEs and nothing else, erased only
non-newlines, and stops at `e = w` or right after a newline.  After `a`, `b`, `c`
fed on top of a fully published prefix that leaves at least four free slots
(`W = E`, `E + 3 < R + 128`), kill-line erases exactly these three and `e`
returns to `w`. -/
theorem kill_line_erases (s : Cons) (R W E : Nat) (ht : Tracks s R W E) (hi : Inv R W E) :
    (∃ k, k ≤ E - W ∧
      consintr (C 85) s =
        ({ s with e := (E - k) % UINT_MOD },
          List.replicate k (Effect.consputc BACKSPACE)) ∧
      (E - k = W ∨ bufAt s.buf (E - k - 1) = 10) ∧
      (∀ j, j < k → bufAt s.buf (E - j - 1) ≠ 10)) ∧
    (W = E → E + 3 < R + INPUT_BUF_SIZE →
      (feed [97, 98, 99] s).1.w = s.w ∧
      (feed [97, 98, 99] s).1.e = (E + 3) % UINT_MOD ∧
      consintr (C 85) (feed [97, 98, 99] s).1 =
        ({ (feed [97, 98, 99] s).1 with e := s.w },
          List.replicate 3 (Effect.consputc BACKSPACE))) := by
  constructor
  · obtain ⟨hr, hw, he⟩ := ht
    obtain ⟨h1, h2, h3⟩ := hi
    obtain ⟨k, hk, hrun, hstop, hall⟩ :=
      killLoop_tracks (usub s.e s.w) s W E hw he h2
        (by simp only [UINT_MOD, INPUT_BUF_SIZE] at *; omega)
        (by
          rw [he, hw, usub_tracks E W h2]
          simp only [UINT_MOD, INPUT_BUF_SIZE] at *; omega)
    refine ⟨k, hk, ?_, ?_, ?_⟩
    · rw [consintr_kill, hrun]
    · rw [bufAt_tracks] at hstop; exact hstop
    · intro j hj
      have := hall j hj
      rw [bufAt_tracks] at this; exact this
  · intro hWE hroom
    have hord : ∀ c ∈ ([97, 98, 99] : List Int), Ordinary c := by decide
    obtain ⟨-, f2, f3, f4, f5, -⟩ :=
      feed_ordinary [97, 98, 99] s R W E ht hi hord (by simpa using hroom)
    have ht3 : Tracks (feed [97, 98, 99] s).1 R W (E + 3) := by
      refine ⟨by rw [f2]; exact ht.1, by rw [f3]; exact ht.2.1, ?_⟩
      simpa using f4
    have hi3 : Inv R W (E + 3) := ⟨hi.1, by omega, by omega⟩
    have hnl : ∀ i, W ≤ i → i < E + 3 → bufAt (feed [97, 98, 99] s).1.buf i ≠ 10 := by
      intro i h1 h2
      have hcase : i = E + 0 ∨ i = E + 1 ∨ i = E + 2 := by omega
      rcases hcase with h | h | h
      · rw [h, f5 0 97 rfl]; decide
      · rw [h, f5 1 98 rfl]; decide
      · rw [h, f5 2 99 rfl]; decide
    have hk := kill_uncommitted (feed [97, 98, 99] s).1 R W (E + 3) ht3 hi3 hnl
    refine ⟨f3, by simpa using f4, ?_⟩
    have h3 : E + 3 - W = 3 := by omega
    rw [hk, h3]
    simp only [f3]

/-- C4 witness: prefix `hi\nx\n` published and unread (`R = 0`, `W = E = 5`), then
`a`, `b`, `c`, then kill-line. -/
theorem kill_line_erases_witness :
    Tracks { buf := fun j => if j.val = 2 ∨ j.val = 4 then 10 else 120, r := 0, w := 5, e := 5 }
        0 5 5 ∧ Inv 0 5 5 ∧
      consintr (C 85) (feed [97, 98, 99]
          { buf := fun j => if j.val = 2 ∨ j.val = 4 then 10 else 120,
            r := 0, w := 5, e := 5 }).1 =
        ({ (feed [97, 98, 99]
              { buf := fun j => if j.val = 2 ∨ j.val = 4 then 10 else 120,
                r := 0, w := 5, e := 5 }).1 with e := 5 },
          List.replicate 3 (Effect.consputc BACKSPACE)) :=
  ⟨by decide, by decide,
    ((kill_line_erases _ 0 5 5 (by decide) (by decide)).2 rfl (by decide)).2.2⟩

/-- C4 as stated fails on a nearly full published prefix: with 125 published
bytes unread (`r = 0`, `w = e = 125`), the third of `a`, `b`, `c` fills the buffer
and is published with the other two, so kill-line erases nothing and `e`
stays at 128. -/
theorem kill_line_full_prefix_counterexample :
    Tracks { buf := fun _ => 120, r := 0, w := 125, e := 125 } 0 125 125 ∧
      Inv 0 125 125 ∧
      (feed [97, 98, 99] { buf := fun _ => 120, r := 0, w := 125, e := 125 }).1.w = 128 ∧
      (feed [97, 98, 99] { buf := fun _ => 120, r := 0, w := 125, e := 125 }).1.e = 128 ∧
      (consintr (C 85)
        (feed [97, 98, 99] { buf := fun _ => 120, r := 0, w := 125, e := 125 }).1).2 = [] ∧
      (consintr (C 85)
        (feed [97, 98, 99] { buf := fun _ => 120, r := 0, w := 125, e := 125 }).1).1.e
          = 128 := by
  decide!

/-- C2: from an empty buffer (`r = w = e`, holding the counter `R`), feeding
`n ≤ 127` ordinary bytes and then a newline echoes every byte, calls `wakeup`
exactly once and as the very last call, leaves `r` alone, sets `w = e = R + n + 1`
(so `w - r = n + 1`), and the published bytes `r .. w-1` are the fed bytes
followed by the newline. -/
theorem line_published (s : Cons) (R : Nat) (cs : List Int) (ht : Tracks s R R R)
    (hord : ∀ c ∈ cs, Ordinary c) (hlen : cs.length ≤ 127) :
    (feed (cs ++ [10]) s).2 =
        cs.map Effect.consputc ++ [Effect.consputc 10, Effect.wakeup] ∧
      (feed cs s).2.count Effect.wakeup = 0 ∧
      (feed (cs ++ [10]) s).2.count Effect.wakeup = 1 ∧
      (feed (cs ++ [10]) s).1.r = s.r ∧
      (feed (cs ++ [10]) s).1.w = (R + cs.length + 1) % UINT_MOD ∧
      (feed (cs ++ [10]) s).1.e = (R + cs.length + 1) % UINT_MOD ∧
      usub (feed (cs ++ [10]) s).1.w (feed (cs ++ [10]) s).1.r = cs.length + 1 ∧
      (published (feed (cs ++ [10]) s).1).map Int.ofNat = cs ++ [10] := by
  have hi : Inv R R R := ⟨le_refl _, le_refl _, by omega⟩
  obtain ⟨f1, f2, f3, f4, f5, f6⟩ :=
    feed_ordinary cs s R R R ht hi hord (by simp only [INPUT_BUF_SIZE]; omega)
  have ht1 : Tracks (feed cs s).1 R R (R + cs.length) :=
    ⟨by rw [f2]; exact ht.1, by rw [f3]; exact ht.2.1, f4⟩
  have hi1 : Inv R R (R + cs.length) :=
    ⟨le_refl _, by omega, by simp only [INPUT_BUF_SIZE]; omega⟩
  have hnl := consintr_newline (feed cs s).1 R R (R + cs.length) ht1 hi1
    (by simp only [INPUT_BUF_SIZE]; omega)
  have hfeed : feed (cs ++ [10]) s =
      ({ (feed cs s).1 with buf := bufStore (feed cs s).1.buf (R + cs.length) 10,
                            w := (R + cs.length + 1) % UINT_MOD,
                            e := (R + cs.length + 1) % UINT_MOD },
        cs.map Effect.consputc ++ [Effect.consputc 10, Effect.wakeup]) := by
    rw [feed_append, feed_single, hnl, f1]
  have hdist : usub ((R + cs.length + 1) % UINT_MOD) (R % UINT_MOD) = cs.length + 1 := by
    rw [usub_tracks _ _ (by omega)]
    simp only [UINT_MOD]; omega
  rw [hfeed]
  refine ⟨rfl, ?_, ?_, ?_, rfl, rfl, ?_, ?_⟩
  · rw [f1]; exact count_wakeup_echo cs
  · simp [List.count_append, count_wakeup_echo, List.count_cons]
  · exact f2
  · show usub ((R + cs.length + 1) % UINT_MOD) (feed cs s).1.r = cs.length + 1
    rw [f2, ht.1]; exact hdist
  · have hr : (feed cs s).1.r = R % UINT_MOD := by rw [f2]; exact ht.1
    simp only [published, hr, hdist, List.map_map]
    apply List.ext_getElem
    · simp
    · intro i h1 h2
      simp only [List.length_map, List.length_range] at h1
      simp only [List.getElem_map, List.getElem_range, Function.comp_apply]
      rw [bufAt_add_tracks, bufAt_bufStore]
      by_cases hin : i < cs.length
      · have hne : ¬ ((R + i) % 128 = (R + cs.length) % 128) := by omega
        rw [if_neg hne, List.getElem_append_left hin]
        have hget : cs[i]? = some cs[i] := List.getElem?_eq_getElem hin
        rw [f5 i cs[i] hget]
        exact toChar_ordinary _ (hord _ (List.getElem_mem _))
      · have hi2 : i = cs.length := by omega
        subst hi2
        simp

/-- C2 witness: `a`, `b`, `c`, newline into the zero-initialised buffer. -/
theorem line_published_witness :
    Tracks cons0 0 0 0 ∧ (∀ c ∈ ([97, 98, 99] : List Int), Ordinary c) ∧
      (feed ([97, 98, 99] ++ [10]) cons0).2 =
          [Effect.consputc 97, Effect.consputc 98, Effect.consputc 99,
            Effect.consputc 10, Effect.wakeup] ∧
      (feed ([97, 98, 99] ++ [10]) cons0).2.count Effect.wakeup = 1 ∧
      usub (feed ([97, 98, 99] ++ [10]) cons0).1.w (feed ([97, 98, 99] ++ [10]) cons0).1.r
          = 4 ∧
      (published (feed ([97, 98, 99] ++ [10]) cons0).1).map Int.ofNat = [97, 98, 99, 10] :=
  have h := line_published cons0 0 [97, 98, 99] (by decide) (by decide) (by decide)
  ⟨by decide, by decide, h.1, h.2.2.1, h.2.2.2.2.2.2.1, h.2.2.2.2.2.2.2⟩

/-- C3 (as amended): from an empty buffer, feeding more than 128 ordinary bytes
(no line terminator among them) ends exactly as feeding the first 128 does:
`e - r = 128`, the retained and published bytes are the first 128 fed, every
further ordinary byte is dropped with no state change and no call, the invariant
holds after every prefix, and `wakeup` is called exactly once, by the 128th byte
that fills the buffer (not before, not after). -/
theorem overflow_keeps_capacity (s : Cons) (R : Nat) (cs : List Int) (ht : Tracks s R R R)
    (hord : ∀ c ∈ cs, Ordinary c) (hlen : 128 < cs.length) :
    (feed cs s).1 = (feed (cs.take 128) s).1 ∧
      Tracks (feed cs s).1 R (R + 128) (R + 128) ∧ Inv R (R + 128) (R + 128) ∧
      usub (feed cs s).1.e (feed cs s).1.r = 128 ∧
      (published (feed cs s).1).map Int.ofNat = cs.take 128 ∧
      (∀ c, Ordinary c → consintr c (feed cs s).1 = ((feed cs s).1, [])) ∧
      (∀ k, ∃ W' E', Tracks (feed (cs.take k) s).1 R W' E' ∧ Inv R W' E') ∧
      (feed cs s).2 = (cs.take 128).map Effect.consputc ++ [Effect.wakeup] ∧
      (feed (cs.take 127) s).2.count Effect.wakeup = 0 ∧
      (feed cs s).2.count Effect.wakeup = 1 := by
  have hi : Inv R R R := ⟨le_refl _, le_refl _, by omega⟩
  have htl : (cs.take 128).length = 128 := by
    rw [List.length_take]; omega
  have hto : ∀ c ∈ cs.take 128, Ordinary c := fun c hc => hord c (List.mem_of_mem_take hc)
  have hro : ∀ c ∈ cs.drop 128, Ordinary c := fun c hc => hord c (List.mem_of_mem_drop hc)
  obtain ⟨g1, g2, g3⟩ := feed_overflow (cs.take 128) (cs.drop 128) s R ht hto hro htl
  rw [List.take_append_drop] at g1
  have hst : (feed cs s).1 = (feed (cs.take 128) s).1 := by rw [g1]
  have htr : (feed cs s).2 = (cs.take 128).map Effect.consputc ++ [Effect.wakeup] := by
    rw [g1]
  have h127 : (cs.take 127).length = 127 := by
    rw [List.length_take]; omega
  obtain ⟨p1, -⟩ :=
    feed_ordinary (cs.take 127) s R R R ht hi
      (fun c hc => hord c (List.mem_of_mem_take hc))
      (by rw [h127]; simp only [INPUT_BUF_SIZE]; omega)
  refine ⟨hst, by rw [hst]; exact g2, ⟨by omega, le_refl _, le_refl _⟩, ?_, ?_, ?_, ?_, htr,
    ?_, ?_⟩
  · rw [hst, g2.2.2, g2.1,
      usub_tracks_small (R + 128) R (by omega) (by simp only [INPUT_BUF_SIZE]; omega)]
    omega
  · rw [hst]
    refine published_eq _ R (cs.take 128) g2.1 (by rw [htl]; exact g2.2.1)
      (by rw [htl]) ?_ g3
    intro c hc
    obtain ⟨c0, c1, -⟩ := hto c hc
    exact ⟨le_of_lt c0, c1⟩
  · intro c hc
    rw [hst]
    exact consintr_drop _ R (R + 128) (R + 128) c g2 hc rfl
  · intro k
    exact (feed_inv (cs.take k) s R R R ht hi).2
  · rw [p1]; exact count_wakeup_echo _
  · rw [htr, List.count_append, count_wakeup_echo]
    decide

/-- C3 witness: 130 letters `a` into the zero-initialised buffer. -/
theorem overflow_keeps_capacity_witness :
    Tracks cons0 0 0 0 ∧ (∀ c ∈ List.replicate 130 (97 : Int), Ordinary c) ∧
      usub (feed (List.replicate 130 97) cons0).1.e (feed (List.replicate 130 97) cons0).1.r
          = 128 ∧
      (published (feed (List.replicate 130 97) cons0).1).map Int.ofNat =
          (List.replicate 130 (97 : Int)).take 128 ∧
      (feed (List.replicate 130 97) cons0).2.count Effect.wakeup = 1 :=
  have h := overflow_keeps_capacity cons0 0 (List.replicate 130 97) (by decide)
    (by intro c hc; rw [List.eq_of_mem_replicate hc]; decide) (by simp)
  ⟨by decide, by intro c hc; rw [List.eq_of_mem_replicate hc]; decide,
    h.2.2.2.1, h.2.2.2.2.1, h.2.2.2.2.2.2.2.2.2⟩

/-- C3 as stated fails: 129 letters `a` fed to the empty zero-initialised buffer
are ordinary bytes without a line terminator, yet the trace contains a `wakeup`
(exactly one, issued when the 128th byte makes `e - r == INPUT_BUF_SIZE`). -/
theorem overflow_wakeup_counterexample :
    (∀ c ∈ List.replicate 129 (97 : Int), Ordinary c) ∧
      128 < (List.replicate 129 (97 : Int)).length ∧
      (feed (List.replicate 128 97) cons0).2.count Effect.wakeup = 1 ∧
      (feed (List.replicate 129 97) cons0).2.count Effect.wakeup = 1 ∧
      ¬ ((feed (List.replicate 129 97) cons0).2.count Effect.wakeup = 0) := by
  decide!

/-- C10: in every state reachable from the zero-initialised buffer by `consintr`
calls on bytes and reader steps, no uncommitted slot (`w .. e-1` modulo 128) holds
a newline; kill-line therefore erases all `e - w` uncommitted characters, one
BACKSPACE each, and ends with `e = w`, nothing else changed. -/
theorem reachable_kill_line_reaches_w (s : Cons) (h : Reachable s) :
    (∀ i, i < usub s.e s.w → bufAt s.buf (s.w + i) ≠ 10) ∧
      (consintr (C 85) s).1 = { s with e := s.w } ∧
      (consintr (C 85) s).2 = List.replicate (usub s.e s.w) (Effect.consputc BACKSPACE) := by
  obtain ⟨R, W, E, ht, hi, hnl⟩ := reachable_region s h
  have hd : usub s.e s.w = E - W := by
    rw [ht.2.2, ht.2.1]
    exact usub_tracks_small E W hi.2.1 (by have := hi.1; have := hi.2.2; omega)
  have hk := kill_uncommitted s R W E ht hi hnl
  refine ⟨?_, by rw [hk], by rw [hk, hd]⟩
  intro i hlt
  rw [hd] at hlt
  rw [ht.2.1, bufAt_add_tracks]
  exact hnl (W + i) (by omega) (by omega)

/-- C10 witness: the state after `a`, newline, `b`, `c`, with the reader having
consumed one byte. -/
theorem reachable_kill_line_reaches_w_witness :
    Reachable (consintr 99 (consintr 98 (readerAdvance 1
        (consintr 10 (consintr 97 cons0).1).1)).1).1 ∧
      (consintr (C 85) (consintr 99 (consintr 98 (readerAdvance 1
        (consintr 10 (consintr 97 cons0).1).1)).1).1).2 =
        List.replicate (usub
          (consintr 99 (consintr 98 (readerAdvance 1
            (consintr 10 (consintr 97 cons0).1).1)).1).1.e
          (consintr 99 (consintr 98 (readerAdvance 1
            (consintr 10 (consintr 97 cons0).1).1)).1).1.w)
          (Effect.consputc BACKSPACE) ∧
      usub
          (consintr 99 (consintr 98 (readerAdvance 1
            (consintr 10 (consintr 97 cons0).1).1)).1).1.e
          (consintr 99 (consintr 98 (readerAdvance 1
            (consintr 10 (consintr 97 cons0).1).1)).1).1.w = 2 :=
  have hr : Reachable (consintr 99 (consintr 98 (readerAdvance 1
      (consintr 10 (consintr 97 cons0).1).1)).1).1 :=
    Reachable.intr 99 _ (by decide) (by decide)
      (Reachable.intr 98 _ (by decide) (by decide)
        (Reachable.read 1 _ (by decide!)
          (Reachable.intr 10 _ (by decide) (by decide)
            (Reachable.intr 97 _ (by decide) (by decide) Reachable.init))))
  ⟨hr, (reachable_kill_line_reaches_w _ hr).2.2, by decide!⟩

end Console
